import Mathlib

/-!
Verification development for the chat widget in
src/src/components/ChatInterface.tsx.

The embedding is character-level: JS strings become Lean String / List Char,
and the regex-driven scanning loops of the source become explicit recursive
functions. Loops whose recursion is not structural are written with an
explicit fuel argument (fuel = input length + 1, always sufficient because
every iteration consumes at least one character; fuel-irrelevance lemmas
are proved below), so that every definition is a computable structural
recursion that the kernel can evaluate on concrete inputs.
-/

namespace KornChat

/-- The backtick character, written via its code-point escape. -/
def btick : Char := '\x60'

/-- The single-quote character, written via its code-point escape. -/
def squote : Char := '\x27'

/-- Models the JS regex class \s (the ASCII fragment: space, tab, newline,
carriage return, vertical tab, form feed).  The same set backs
String.prototype.trim in the source. -/
def jsSpace (c : Char) : Bool :=
  c = ' ' || c = '\t' || c = '\n' || c = '\r' || c = '\x0b' || c = '\x0c'

/-- Models the JS regex class \w, i.e. [A-Za-z0-9_]. -/
def isWordChar (c : Char) : Bool := c.isAlpha || c.isDigit || c = '_'

/-- Models text.trim() from JS: strip leading and trailing \s characters. -/
def trimChars (l : List Char) : List Char :=
  ((l.dropWhile jsSpace).reverse.dropWhile jsSpace).reverse

/-- String-level wrapper for trimChars. -/
def trimString (s : String) : String := String.mk (trimChars s.data)

/-- Models s.split("\n") from JS at the character level. -/
def splitLinesChars : List Char → List (List Char)
  | [] => [[]]
  | c :: rest =>
    if c = '\n' then [] :: splitLinesChars rest
    else
      match splitLinesChars rest with
      | l :: ls => (c :: l) :: ls
      | [] => [[c]]

/-- Models code.split("\n") from the source (line 96). -/
def splitLines (s : String) : List String := (splitLinesChars s.data).map String.mk

/-! ### Shell tokenizer (highlightShellCode, source lines 57-190) -/

/-- The fixed structural/operator character class of the source,
[!#(),;\[\]{}+<=>-] (braces written via code-point escapes). -/
def opChars : List Char :=
  ['!', '#', '(', ')', ',', ';', '[', ']', '\x7b', '\x7d', '+', '<', '=', '>', '-']

/-- Splits a character list at the first occurrence of q:
some (before, after) when q occurs, none otherwise. -/
def splitAtChar (q : Char) : List Char → Option (List Char × List Char)
  | [] => none
  | c :: rest =>
    if c = q then some ([], rest)
    else
      match splitAtChar q rest with
      | some (a, b) => some (c :: a, b)
      | none => none

/-- Grammar alternative \$?\w+ : an optional dollar prefix followed by a
maximal nonempty run of word characters. -/
def altWord : List Char → Option (List Char × List Char)
  | [] => none
  | c :: rest =>
    if c = '$' then
      if (rest.takeWhile isWordChar).isEmpty then none
      else some ('$' :: rest.takeWhile isWordChar, rest.dropWhile isWordChar)
    else
      if ((c :: rest).takeWhile isWordChar).isEmpty then none
      else some ((c :: rest).takeWhile isWordChar, (c :: rest).dropWhile isWordChar)

/-- Grammar alternative for one structural/operator character. -/
def altOp : List Char → Option (List Char × List Char)
  | c :: rest => if opChars.contains c then some ([c], rest) else none
  | [] => none

/-- Grammar alternative \d+ (subsumed by \$?\w+ since digits are word
characters; kept for fidelity to the source regex). -/
def altNum (cs : List Char) : Option (List Char × List Char) :=
  if (cs.takeWhile Char.isDigit).isEmpty then none
  else some (cs.takeWhile Char.isDigit, cs.dropWhile Char.isDigit)

/-- Grammar alternative "[^"]*" : a double-quoted run closed by the next
double quote; fails when no closing quote follows on the line. -/
def altDq : List Char → Option (List Char × List Char)
  | c :: rest =>
    if c = '"' then
      match splitAtChar '"' rest with
      | some (a, b) => some ('"' :: (a ++ ['"']), b)
      | none => none
    else none
  | [] => none

/-- Grammar alternative for a single-quoted run, analogous to altDq. -/
def altSq : List Char → Option (List Char × List Char)
  | c :: rest =>
    if c = squote then
      match splitAtChar squote rest with
      | some (a, b) => some (squote :: (a ++ [squote]), b)
      | none => none
    else none
  | [] => none

/-- Grammar alternative \s+ : a maximal nonempty run of whitespace. -/
def altWs (cs : List Char) : Option (List Char × List Char) :=
  if (cs.takeWhile jsSpace).isEmpty then none
  else some (cs.takeWhile jsSpace, cs.dropWhile jsSpace)

/-- One token match at the current position.  The six alternatives of the
source regex (line 114) are tried in source order; the first that matches
wins.  Returns the matched token and the remaining characters. -/
def tryToken (cs : List Char) : Option (List Char × List Char) :=
  match altWord cs with
  | some r => some r
  | none =>
  match altOp cs with
  | some r => some r
  | none =>
  match altNum cs with
  | some r => some r
  | none =>
  match altDq cs with
  | some r => some r
  | none =>
  match altSq cs with
  | some r => some r
  | none => altWs cs

/-- The matchAll loop of the source (line 115): collect grammar matches left
to right; at a character where no alternative matches, the engine advances
one position, skipping that character.  Fuel-indexed structural recursion;
fuel = length of the input is always sufficient (tokenizeLineAux_congr). -/
def tokenizeLineAux : Nat → List Char → List (List Char)
  | 0, _ => []
  | _, [] => []
  | fuel + 1, c :: rest =>
    match tryToken (c :: rest) with
    | some (t, r) => t :: tokenizeLineAux fuel r
    | none => tokenizeLineAux fuel rest

/-- All grammar tokens of one line, in order. -/
def tokenizeLine (cs : List Char) : List (List Char) := tokenizeLineAux cs.length cs

/-- keywords1 of the source (lines 59-78): control-flow keywords. -/
def keywords1 : List String :=
  ["then", "else", "function", "break", "do", "until", "use", "try", "catch",
   "return", "if", "fi", "while", "case", "esac", "for", "done", "in"]

/-- keywords3 of the source (lines 79-93): command-like words.
Note the source list has thirteen entries, including "cat". -/
def keywords3 : List String :=
  ["print", "echo", "lower", "trim", "edit", "const", "chmod", "cd", "ls",
   "cat", "grep", "awk", "sed"]

/-- keywords4 of the source (line 94): literal/boolean words. -/
def keywords4 : List String := ["true", "false", "null", "and", "or", "not"]

/-- The fixed palette of color classes the highlighter can assign. -/
inductive Color
  | comment
  | number
  | keyword1
  | keyword3
  | keyword4
  | operator
  | strLit
  | var
  | plain
  | uncolored
deriving DecidableEq, Repr

/-- The hex color attached to each palette key in the source, none for the
unstyled span around leading comment whitespace and the raw-line fallback. -/
def colorHex : Color → Option String
  | Color.comment => some "#00FF00"
  | Color.number => some "#FF6B6B"
  | Color.keyword1 => some "#00FFFF"
  | Color.keyword3 => some "#00CED1"
  | Color.keyword4 => some "#FFD700"
  | Color.operator => some "#40E0D0"
  | Color.strLit => some "#98FB98"
  | Color.var => some "#FFA500"
  | Color.plain => some "#E0E0E0"
  | Color.uncolored => none

/-- Test ^\d+$ on a token. -/
def allDigits (t : String) : Bool := !t.data.isEmpty && t.data.all Char.isDigit

/-- Test whether the token is a single character of the operator class. -/
def isSingleOp (t : String) : Bool :=
  match t.data with
  | [c] => opChars.contains c
  | _ => false

/-- Is c one of the two quote characters. -/
def isQuoteChar (c : Char) : Bool := c = '"' || c = squote

/-- Test ^["'].*["']$ on a token: first and last characters are quotes
(possibly mismatched, as in the source regex), length at least two, and the
middle contains no line terminator (the JS dot does not match those). -/
def isQuoted (t : String) : Bool :=
  match t.data with
  | [] => false
  | [_] => false
  | c :: rest =>
    isQuoteChar c &&
    (match rest.getLast? with
     | some d => isQuoteChar d
     | none => false) &&
    rest.dropLast.all (fun x => !(x = '\n' || x = '\r'))

/-- Does the token start with character c. -/
def headIs (t : String) (c : Char) : Bool :=
  match t.data with
  | d :: _ => d = c
  | [] => false

/-- The classification cascade of the source (lines 122-185), in source
order: digit run, keywords1, keywords3, keywords4, operator character,
quoted string, hash prefix, dollar prefix, default. -/
def classify (t : String) : Color :=
  if allDigits t then Color.number
  else if t ∈ keywords1 then Color.keyword1
  else if t ∈ keywords3 then Color.keyword3
  else if t ∈ keywords4 then Color.keyword4
  else if isSingleOp t then Color.operator
  else if isQuoted t then Color.strLit
  else if headIs t '#' then Color.comment
  else if headIs t '$' then Color.var
  else Color.plain

/-- A colored token as rendered by the highlighter. -/
structure Tok where
  text : String
  color : Color
deriving DecidableEq, Repr

/-- The whole-line comment test ^(\s*)(#.*)$ of the source (line 103):
maximal leading whitespace, then a hash, and no line terminator after the
hash (the JS dot excludes those and the regex has no multiline flag). -/
def commentMatch (line : String) : Option (String × String) :=
  let ws := line.data.takeWhile jsSpace
  let rest := line.data.dropWhile jsSpace
  match rest with
  | '#' :: _ =>
    if rest.all (fun x => !(x = '\n' || x = '\r')) then
      some (String.mk ws, String.mk rest)
    else none
  | _ => none

/-- Highlighting of a single line (source lines 98-189).  A whole-line
comment renders as an unstyled whitespace span plus a comment span; an
empty grammar-match list renders the raw line; otherwise each token is
classified. -/
def highlightLine (line : String) : List Tok :=
  match commentMatch line with
  | some (ws, cm) => [⟨ws, Color.uncolored⟩, ⟨cm, Color.comment⟩]
  | none =>
    match tokenizeLine line.data with
    | [] => [⟨line, Color.uncolored⟩]
    | toks => toks.map (fun t => ⟨String.mk t, classify (String.mk t)⟩)

/-- highlightShellCode of the source: split on newlines, highlight each
line. -/
def highlightShellCode (code : String) : List (List Tok) :=
  (splitLines code).map highlightLine

/-! ### Message parser (parseMessage, source lines 21-55) -/

/-- One match of the fenced-block regex inside the scanned text:
the text before the match, the captured language tag (possibly empty),
the captured body, and the text after the closing marker. -/
structure Fence where
  pre : List Char
  lang : List Char
  body : List Char
  rest : List Char
deriving DecidableEq, Repr

/-- Match the opening fence at the current position: three backticks, then
an optional maximal word-character run (the language tag), then a newline.
Returns the tag and the characters after the newline. -/
def matchOpenAt (cs : List Char) : Option (List Char × List Char) :=
  match cs with
  | a :: b :: c :: rest =>
    if a = btick ∧ b = btick ∧ c = btick then
      match rest.dropWhile isWordChar with
      | d :: rest2 =>
        if d = '\n' then some (rest.takeWhile isWordChar, rest2) else none
      | [] => none
    else none
  | _ => none

/-- The lazy body [\s\S]*?``` : split at the first occurrence of three
consecutive backticks.  Returns the body and the text after the closing
marker; none when no closing marker exists. -/
def splitAtTicks : List Char → Option (List Char × List Char)
  | [] => none
  | c :: rest =>
    if (c :: rest).take 3 = [btick, btick, btick] then
      some ([], rest.drop 2)
    else
      match splitAtTicks rest with
      | some (body, r) => some (c :: body, r)
      | none => none

/-- Find the earliest full match of the fenced-block regex
in the text: scan start positions left to right (as regex exec does); at
each position try the opening fence and then the lazy body with closing
marker.  A position whose opening fence matches but has no closing marker
fails there and the scan advances one character, as in the engine. -/
def findFence : List Char → Option Fence
  | [] => none
  | c :: rest =>
    match matchOpenAt (c :: rest) with
    | some (lang, after) =>
      match splitAtTicks after with
      | some (body, r2) => some ⟨[], lang, body, r2⟩
      | none =>
        match findFence rest with
        | some f => some ⟨c :: f.pre, f.lang, f.body, f.rest⟩
        | none => none
    | none =>
      match findFence rest with
      | some f => some ⟨c :: f.pre, f.lang, f.body, f.rest⟩
      | none => none

/-- The successive (language tag, body) captures of the global regex loop,
fuel-indexed (fuel = length + 1 is always sufficient since each match
consumes at least seven characters). -/
def fencesAux : Nat → List Char → List (List Char × List Char)
  | 0, _ => []
  | fuel + 1, cs =>
    match findFence cs with
    | some f => (f.lang, f.body) :: fencesAux fuel f.rest
    | none => []

/-- All fenced-block captures of the text, in source order. -/
def fences (s : String) : List (List Char × List Char) :=
  fencesAux (s.data.length + 1) s.data

/-- The two segment kinds of the source MessagePart type. -/
inductive PartType
  | text
  | code
deriving DecidableEq, Repr

/-- A parsed message segment; language is only set on code segments. -/
structure MessagePart where
  type : PartType
  content : String
  language : Option String
deriving DecidableEq, Repr

/-- The while loop of parseMessage (source lines 27-52): per match, emit the
trimmed preceding text when nonempty, then the code segment with trimmed
body and defaulted language; after the last match, emit the trimmed
trailing text when nonempty.  Fuel-indexed structural recursion. -/
def scanPartsAux : Nat → List Char → List MessagePart
  | 0, _ => []
  | fuel + 1, cs =>
    match findFence cs with
    | some f =>
      (if (trimChars f.pre).isEmpty then []
       else [⟨PartType.text, String.mk (trimChars f.pre), none⟩]) ++
      ⟨PartType.code, String.mk (trimChars f.body),
        some (if f.lang.isEmpty then "bash" else String.mk f.lang)⟩ ::
      scanPartsAux fuel f.rest
    | none =>
      if cs.isEmpty then []
      else if (trimChars cs).isEmpty then []
      else [⟨PartType.text, String.mk (trimChars cs), none⟩]

/-- parseMessage of the source (lines 21-55): run the scan; when it produced
no parts at all, fall back to a single untrimmed text segment holding the
whole input. -/
def parseMessage (text : String) : List MessagePart :=
  match scanPartsAux (text.data.length + 1) text.data with
  | [] => [⟨PartType.text, text, none⟩]
  | parts => parts

/-! ### Chat session controller (sendMessage, source lines 234-281) -/

/-- JSON values as decoded from a response body.  Numbers are modelled as
integers (floating point is irrelevant to every claim). -/
inductive Json
  | null
  | bool (b : Bool)
  | num (n : Int)
  | str (s : String)
  | arr (elems : List Json)
  | obj (fields : List (String × Json))

/-- Escape one character for JSON string output (the common escapes; exotic
control characters are irrelevant to every claim). -/
def escapeChar (c : Char) : String :=
  if c = '"' then "\\\""
  else if c = '\\' then "\\\\"
  else if c = '\n' then "\\n"
  else if c = '\r' then "\\r"
  else if c = '\t' then "\\t"
  else String.singleton c

/-- JSON string literal output. -/
def stringifyString (s : String) : String :=
  "\"" ++ String.join (s.data.map escapeChar) ++ "\""

mutual

/-- Models JSON.stringify on decoded values (compact form, keys in object
order, as JSON.stringify produces for plain decoded objects). -/
def stringify : Json → String
  | Json.null => "null"
  | Json.bool b => if b then "true" else "false"
  | Json.num n => toString n
  | Json.str s => stringifyString s
  | Json.arr xs => "[" ++ stringifyArr xs ++ "]"
  | Json.obj fs => "\x7b" ++ stringifyObj fs ++ "\x7d"

/-- Comma-joined serialization of array elements. -/
def stringifyArr : List Json → String
  | [] => ""
  | [x] => stringify x
  | x :: xs => stringify x ++ "," ++ stringifyArr xs

/-- Comma-joined serialization of object fields. -/
def stringifyObj : List (String × Json) → String
  | [] => ""
  | [kv] => stringifyString kv.1 ++ ":" ++ stringify kv.2
  | kv :: kvs => stringifyString kv.1 ++ ":" ++ stringify kv.2 ++ "," ++ stringifyObj kvs

end

/-- JS truthiness of a decoded JSON value. -/
def jsTruthy : Json → Bool
  | Json.null => false
  | Json.bool b => b
  | Json.num n => !(n == 0)
  | Json.str s => !(s == "")
  | Json.arr _ => true
  | Json.obj _ => true

/-- Truthiness of a possibly-absent (undefined) value. -/
def jsTruthyOpt : Option Json → Bool
  | some v => jsTruthy v
  | none => false

/-- Models the JS operator a || b on a possibly-undefined left operand:
the left value when truthy, otherwise the right value. -/
def jsOrOpt (a : Option Json) (b : Json) : Json :=
  match a with
  | some v => if jsTruthy v then v else b
  | none => b

/-- Property access data.k on a decoded value: a field lookup on objects,
undefined (none) on every non-object non-null value.  Access on null
throws and is handled separately in sendMessage. -/
def fieldOrUndef (j : Json) (k : String) : Option Json :=
  match j with
  | Json.obj fs => List.lookup k fs
  | _ => none

/-- Models data.output || data.message || data.response ||
JSON.stringify(data) from source line 265, for non-null data. -/
def replyText (data : Json) : Json :=
  jsOrOpt (fieldOrUndef data "output")
    (jsOrOpt (fieldOrUndef data "message")
      (jsOrOpt (fieldOrUndef data "response") (Json.str (stringify data))))

/-- The two message senders. -/
inductive Sender
  | user
  | bot
deriving DecidableEq, Repr

/-- A chat message (source Message interface).  The text field holds a JSON
value because the bot text is whatever the reply extraction produced, which
the source does not coerce; user text is always a string. -/
structure Message where
  id : String
  text : Json
  sender : Sender
  timestamp : Nat

/-- The controller state: the message list, the compose buffer, and the
awaiting-response flag. -/
structure ChatState where
  messages : List Message
  input : String
  isLoading : Bool

/-- The possible outcomes of the single outbound request: transport failure
(fetch rejects), a non-success HTTP status (response.ok false), a JSON
decode failure (response.json() rejects), or a decoded body. -/
inductive NetOutcome
  | transportError
  | httpError (status : Nat)
  | decodeError
  | success (body : Json)

/-- The outbound request body, JSON.stringify(\x7b message: ... \x7d). -/
structure Request where
  message : String
deriving DecidableEq

/-- The user message appended on submit (Date.now() modelled by the now
parameter). -/
def userMessage (now : Nat) (t : String) : Message :=
  ⟨toString now, Json.str t, Sender.user, now⟩

/-- sendMessage of the source (lines 234-281), as a state transition
parameterized by the network outcome.  Returns the new state and the
request body issued (none when no request was made).  The finally block
clears isLoading on every path; a null decoded body makes the property
access on line 265 throw, which the catch swallows without appending a bot
message. -/
def sendMessage (now : Nat) (s : ChatState) (net : NetOutcome) : ChatState × Option Request :=
  if trimString s.input = "" ∨ s.isLoading = true then (s, none)
  else
    let t := trimString s.input
    let base : ChatState := ⟨s.messages ++ [userMessage now t], "", true⟩
    let req : Option Request := some ⟨t⟩
    match net with
    | NetOutcome.success body =>
      match body with
      | Json.null => ({ base with isLoading := false }, req)
      | _ =>
        let bot : Message := ⟨toString (now + 1), replyText body, Sender.bot, now⟩
        ({ base with messages := base.messages ++ [bot], isLoading := false }, req)
    | _ => ({ base with isLoading := false }, req)

/-! ### Derived notions used only to state the claims -/

/-- Erase all whitespace characters; two strings that agree up to
per-segment surrounding-whitespace trimming have equal erasures. -/
def eraseWs (l : List Char) : List Char := l.filter (fun c => !jsSpace c)

/-- Re-wrap one segment as the round-trip invariant prescribes: prose
content as-is; a code segment wrapped in its opening marker, language tag
and newline, and its closing marker. -/
def reconstructPart (p : MessagePart) : List Char :=
  match p.type with
  | PartType.text => p.content.data
  | PartType.code =>
    "```".data ++ (p.language.getD "bash").data ++ '\n' :: p.content.data ++ "```".data

/-- Concatenation of all re-wrapped segments. -/
def reconstructChars (ps : List MessagePart) : List Char :=
  (ps.map reconstructPart).flatten

/-- The concatenation of the rendered token texts of one line. -/
def tokensJoined (ts : List Tok) : List Char :=
  (ts.map (fun t => t.text.data)).flatten

/-- Is the segment a code segment. -/
def isCodePart (p : MessagePart) : Bool := p.type == PartType.code

/-- Is the segment a prose segment. -/
def isTextPart (p : MessagePart) : Bool := p.type == PartType.text

end KornChat

namespace KornChat

/-! ### Helper lemmas: strings, trimming, whitespace erasure -/

theorem data_mk (l : List Char) : (String.mk l).data = l := rfl

theorem eraseWs_append (a b : List Char) : eraseWs (a ++ b) = eraseWs a ++ eraseWs b := by
  simp [eraseWs]

theorem eraseWs_reverse (l : List Char) : eraseWs l.reverse = (eraseWs l).reverse := by
  simp [eraseWs, List.filter_reverse]

theorem eraseWs_cons_keep (c : Char) (l : List Char) (h : jsSpace c = false) :
    eraseWs (c :: l) = c :: eraseWs l := by
  simp [eraseWs, h]

theorem eraseWs_cons_drop (c : Char) (l : List Char) (h : jsSpace c = true) :
    eraseWs (c :: l) = eraseWs l := by
  simp [eraseWs, h]

theorem eraseWs_takeWhile_space (l : List Char) : eraseWs (l.takeWhile jsSpace) = [] := by
  rw [eraseWs, List.filter_eq_nil_iff]
  intro a ha
  have := List.mem_takeWhile_imp ha
  simp [this]

theorem eraseWs_dropWhile (l : List Char) : eraseWs (l.dropWhile jsSpace) = eraseWs l := by
  conv_rhs => rw [← List.takeWhile_append_dropWhile jsSpace l]
  rw [eraseWs_append, eraseWs_takeWhile_space, List.nil_append]

theorem eraseWs_trimChars (l : List Char) : eraseWs (trimChars l) = eraseWs l := by
  unfold trimChars
  rw [eraseWs_reverse, eraseWs_dropWhile, eraseWs_reverse, List.reverse_reverse,
    eraseWs_dropWhile]

theorem eraseWs_of_trim_nil (l : List Char) (h : trimChars l = []) : eraseWs l = [] := by
  rw [← eraseWs_trimChars, h]
  rfl

theorem head?_not_space_dropWhile (p : Char → Bool) (l : List Char) :
    ∀ c, (l.dropWhile p).head? = some c → p c = false := by
  induction l with
  | nil => intro c h; simp at h
  | cons a t ih =>
    intro c h
    by_cases hp : p a
    · rw [List.dropWhile_cons, if_pos hp] at h
      exact ih c h
    · rw [List.dropWhile_cons, if_neg hp] at h
      simp at h
      subst h
      simpa using hp

theorem dropWhile_eq_self_of_head? (p : Char → Bool) (l : List Char)
    (h : ∀ c, l.head? = some c → p c = false) : l.dropWhile p = l := by
  cases l with
  | nil => rfl
  | cons a t =>
    have := h a rfl
    simp [List.dropWhile_cons, this]

theorem head?_append_left (A B : List Char) (h : A ≠ []) : (A ++ B).head? = A.head? := by
  cases A with
  | nil => exact absurd rfl h
  | cons a t => rfl

theorem trim_prefix_head? (p : Char → Bool) (m : List Char) :
    ∀ c, ((m.reverse.dropWhile p).reverse).head? = some c → m.head? = some c := by
  intro c h
  have hpre : (m.reverse.dropWhile p).reverse ++ (m.reverse.takeWhile p).reverse = m := by
    rw [← List.reverse_append, List.takeWhile_append_dropWhile, List.reverse_reverse]
  have hA : (m.reverse.dropWhile p).reverse ≠ [] := by
    intro h0
    rw [h0] at h
    simp at h
  rw [← hpre, head?_append_left _ _ hA]
  exact h

theorem trimChars_idem (l : List Char) : trimChars (trimChars l) = trimChars l := by
  unfold trimChars
  have h1 : (((l.dropWhile jsSpace).reverse.dropWhile jsSpace).reverse).dropWhile jsSpace
      = ((l.dropWhile jsSpace).reverse.dropWhile jsSpace).reverse := by
    apply dropWhile_eq_self_of_head?
    intro c hc
    exact head?_not_space_dropWhile jsSpace l c
      (trim_prefix_head? jsSpace (l.dropWhile jsSpace) c hc)
  rw [h1, List.reverse_reverse]
  have h2 : ((l.dropWhile jsSpace).reverse.dropWhile jsSpace).dropWhile jsSpace
      = (l.dropWhile jsSpace).reverse.dropWhile jsSpace := by
    apply dropWhile_eq_self_of_head?
    intro c hc
    exact head?_not_space_dropWhile jsSpace (l.dropWhile jsSpace).reverse c hc
  rw [h2]

theorem trimString_idem (s : String) : trimString (trimString s) = trimString s := by
  unfold trimString
  rw [data_mk, trimChars_idem]

theorem isWordChar_not_space (c : Char) (h : isWordChar c = true) : jsSpace c = false := by
  by_contra hns
  simp only [Bool.not_eq_false] at hns
  unfold jsSpace at hns
  simp only [Bool.or_eq_true, decide_eq_true_eq] at hns
  rcases hns with ((((h1 | h1) | h1) | h1) | h1) | h1 <;> subst h1 <;>
    exact absurd h (by decide)

theorem eraseWs_of_all_word (l : List Char) (h : ∀ x ∈ l, isWordChar x = true) :
    eraseWs l = l := by
  rw [eraseWs, List.filter_eq_self]
  intro a ha
  simp [isWordChar_not_space a (h a ha)]

end KornChat

namespace KornChat

/-! ### Tokenizer lemmas -/

theorem splitAtChar_eq (q : Char) : ∀ (cs a b : List Char),
    splitAtChar q cs = some (a, b) → cs = a ++ q :: b := by
  intro cs
  induction cs with
  | nil => intro a b h; simp [splitAtChar] at h
  | cons c rest ih =>
    intro a b h
    by_cases hc : c = q
    · rw [splitAtChar, if_pos hc] at h
      cases h
      simp [hc]
    · rw [splitAtChar, if_neg hc] at h
      cases hsp : splitAtChar q rest with
      | none => rw [hsp] at h; cases h
      | some p =>
        obtain ⟨a2, b2⟩ := p
        rw [hsp] at h
        cases h
        simp [ih a2 b hsp]

theorem altWord_eq (cs t r : List Char) (h : altWord cs = some (t, r)) :
    t ≠ [] ∧ t ++ r = cs := by
  cases cs with
  | nil => simp [altWord] at h
  | cons c rest =>
    by_cases hc : c = '$'
    · rw [altWord, if_pos hc] at h
      by_cases he : (rest.takeWhile isWordChar).isEmpty
      · rw [if_pos he] at h; cases h
      · rw [if_neg he] at h
        cases h
        refine ⟨by simp, ?_⟩
        simp [hc, List.takeWhile_append_dropWhile]
    · rw [altWord, if_neg hc] at h
      by_cases he : ((c :: rest).takeWhile isWordChar).isEmpty
      · rw [if_pos he] at h; cases h
      · rw [if_neg he] at h
        cases h
        refine ⟨by simpa [List.isEmpty_iff] using he, ?_⟩
        simp [List.takeWhile_append_dropWhile]

theorem altOp_eq (cs t r : List Char) (h : altOp cs = some (t, r)) :
    t ≠ [] ∧ t ++ r = cs := by
  cases cs with
  | nil => simp [altOp] at h
  | cons c rest =>
    by_cases hc : opChars.contains c
    · rw [altOp, if_pos hc] at h
      cases h
      simp
    · rw [altOp, if_neg hc] at h
      cases h

theorem altNum_eq (cs t r : List Char) (h : altNum cs = some (t, r)) :
    t ≠ [] ∧ t ++ r = cs := by
  by_cases he : (cs.takeWhile Char.isDigit).isEmpty
  · rw [altNum, if_pos he] at h; cases h
  · rw [altNum, if_neg he] at h
    cases h
    refine ⟨by simpa [List.isEmpty_iff] using he, ?_⟩
    simp [List.takeWhile_append_dropWhile]

theorem altDq_eq (cs t r : List Char) (h : altDq cs = some (t, r)) :
    t ≠ [] ∧ t ++ r = cs := by
  cases cs with
  | nil => simp [altDq] at h
  | cons c rest =>
    by_cases hc : c = '"'
    · rw [altDq, if_pos hc] at h
      cases hsp : splitAtChar '"' rest with
      | none => rw [hsp] at h; cases h
      | some p =>
        obtain ⟨a, b⟩ := p
        rw [hsp] at h
        cases h
        refine ⟨by simp, ?_⟩
        have := splitAtChar_eq '"' rest a r hsp
        simp [hc, this]
    · rw [altDq, if_neg hc] at h
      cases h

theorem altSq_eq (cs t r : List Char) (h : altSq cs = some (t, r)) :
    t ≠ [] ∧ t ++ r = cs := by
  cases cs with
  | nil => simp [altSq] at h
  | cons c rest =>
    by_cases hc : c = squote
    · rw [altSq, if_pos hc] at h
      cases hsp : splitAtChar squote rest with
      | none => rw [hsp] at h; cases h
      | some p =>
        obtain ⟨a, b⟩ := p
        rw [hsp] at h
        cases h
        refine ⟨by simp, ?_⟩
        have := splitAtChar_eq squote rest a r hsp
        simp [hc, this]
    · rw [altSq, if_neg hc] at h
      cases h

theorem altWs_eq (cs t r : List Char) (h : altWs cs = some (t, r)) :
    t ≠ [] ∧ t ++ r = cs := by
  by_cases he : (cs.takeWhile jsSpace).isEmpty
  · rw [altWs, if_pos he] at h; cases h
  · rw [altWs, if_neg he] at h
    cases h
    refine ⟨by simpa [List.isEmpty_iff] using he, ?_⟩
    simp [List.takeWhile_append_dropWhile]

theorem tryToken_eq (cs t r : List Char) (h : tryToken cs = some (t, r)) :
    t ≠ [] ∧ t ++ r = cs := by
  unfold tryToken at h
  cases h1 : altWord cs with
  | some p => rw [h1] at h; cases h; exact altWord_eq cs t r h1
  | none =>
  rw [h1] at h
  cases h2 : altOp cs with
  | some p => rw [h2] at h; cases h; exact altOp_eq cs t r h2
  | none =>
  rw [h2] at h
  cases h3 : altNum cs with
  | some p => rw [h3] at h; cases h; exact altNum_eq cs t r h3
  | none =>
  rw [h3] at h
  cases h4 : altDq cs with
  | some p => rw [h4] at h; cases h; exact altDq_eq cs t r h4
  | none =>
  rw [h4] at h
  cases h5 : altSq cs with
  | some p => rw [h5] at h; cases h; exact altSq_eq cs t r h5
  | none =>
  rw [h5] at h
  exact altWs_eq cs t r h

theorem tryToken_lt (cs t r : List Char) (h : tryToken cs = some (t, r)) :
    r.length < cs.length := by
  obtain ⟨hne, heq⟩ := tryToken_eq cs t r h
  have : 0 < t.length := List.length_pos.mpr hne
  rw [← heq]
  simp
  omega

theorem tokenizeLineAux_flatten_sublist : ∀ (fuel : Nat) (cs : List Char),
    (tokenizeLineAux fuel cs).flatten.Sublist cs := by
  intro fuel
  induction fuel with
  | zero => intro cs; simp [tokenizeLineAux]
  | succ n ih =>
    intro cs
    cases cs with
    | nil => simp [tokenizeLineAux]
    | cons c rest =>
      cases htt : tryToken (c :: rest) with
      | none =>
        simp only [tokenizeLineAux, htt]
        exact (ih rest).trans (List.sublist_cons_self c rest)
      | some p =>
        obtain ⟨t, r⟩ := p
        obtain ⟨hne, heq⟩ := tryToken_eq _ _ _ htt
        simp only [tokenizeLineAux, htt, List.flatten_cons]
        rw [← heq]
        exact List.Sublist.append_left (ih r) t

theorem tokenizeLineAux_congr : ∀ (f1 f2 : Nat) (cs : List Char),
    cs.length ≤ f1 → cs.length ≤ f2 → tokenizeLineAux f1 cs = tokenizeLineAux f2 cs := by
  intro f1
  induction f1 with
  | zero =>
    intro f2 cs h1 _
    have : cs = [] := List.length_eq_zero.mp (Nat.le_zero.mp h1)
    subst this
    cases f2 <;> rfl
  | succ n ih =>
    intro f2 cs h1 h2
    cases cs with
    | nil => cases f2 <;> rfl
    | cons c rest =>
      cases f2 with
      | zero => simp at h2
      | succ m =>
        cases htt : tryToken (c :: rest) with
        | none =>
          simp only [tokenizeLineAux, htt]
          exact ih m rest (by simp at h1; omega) (by simp at h2; omega)
        | some p =>
          obtain ⟨t, r⟩ := p
          have hl := tryToken_lt _ _ _ htt
          simp only [tokenizeLineAux, htt]
          rw [ih m r (by simp at h1 hl; omega) (by simp at h2 hl; omega)]

end KornChat

namespace KornChat

/-! ### Comment and fence lemmas -/

theorem commentMatch_eq (line ws cm : String) (h : commentMatch line = some (ws, cm)) :
    ws.data ++ cm.data = line.data := by
  simp only [commentMatch] at h
  split at h
  next x heq =>
    split at h
    · cases h
      exact List.takeWhile_append_dropWhile jsSpace line.data
    · cases h
  next => cases h

theorem matchOpenAt_eq (cs lang after : List Char) (h : matchOpenAt cs = some (lang, after)) :
    cs = btick :: btick :: btick :: (lang ++ '\n' :: after) ∧
    ∀ x ∈ lang, isWordChar x = true := by
  unfold matchOpenAt at h
  split at h
  next a b c rest =>
    split at h
    next habc =>
      split at h
      next d rest2 hdrop =>
        split at h
        next hd =>
          cases h
          obtain ⟨ha, hb, hc⟩ := habc
          subst ha; subst hb; subst hc; subst hd
          refine ⟨?_, fun x hx => List.mem_takeWhile_imp hx⟩
          have hr := List.takeWhile_append_dropWhile isWordChar rest
          rw [hdrop] at hr
          conv_lhs => rw [← hr]
        next => cases h
      next => cases h
    next => cases h
  next => cases h

theorem splitAtTicks_eq : ∀ (cs body r : List Char),
    splitAtTicks cs = some (body, r) → cs = body ++ btick :: btick :: btick :: r := by
  intro cs
  induction cs with
  | nil => intro body r h; simp [splitAtTicks] at h
  | cons c rest ih =>
    intro body r h
    by_cases ht : (c :: rest).take 3 = [btick, btick, btick]
    · rw [splitAtTicks, if_pos ht] at h
      cases h
      have hdec := List.take_append_drop 3 (c :: rest)
      rw [ht] at hdec
      simp only [List.nil_append]
      rw [← hdec]
      rfl
    · rw [splitAtTicks, if_neg ht] at h
      cases hsp : splitAtTicks rest with
      | none => rw [hsp] at h; cases h
      | some p =>
        obtain ⟨b2, r2⟩ := p
        rw [hsp] at h
        cases h
        simp [ih b2 r hsp]

theorem findFence_eq : ∀ (cs : List Char) (f : Fence), findFence cs = some f →
    (cs = f.pre ++ btick :: btick :: btick :: (f.lang ++ '\n' :: f.body) ++
      btick :: btick :: btick :: f.rest) ∧ ∀ x ∈ f.lang, isWordChar x = true := by
  intro cs
  induction cs with
  | nil => intro f h; simp [findFence] at h
  | cons c rest ih =>
    intro f h
    unfold findFence at h
    split at h
    next lang after hopen =>
      split at h
      next body r2 hticks =>
        cases h
        obtain ⟨hcs, hw⟩ := matchOpenAt_eq _ _ _ hopen
        have hb := splitAtTicks_eq _ _ _ hticks
        refine ⟨?_, hw⟩
        rw [hcs, hb]
        simp
      next hticks =>
        split at h
        next f2 hf2 =>
          cases h
          obtain ⟨hcs, hw⟩ := ih f2 hf2
          exact ⟨by simp [hcs], hw⟩
        next => cases h
    next hopen =>
      split at h
      next f2 hf2 =>
        cases h
        obtain ⟨hcs, hw⟩ := ih f2 hf2
        exact ⟨by simp [hcs], hw⟩
      next => cases h

theorem findFence_rest_lt (cs : List Char) (f : Fence) (h : findFence cs = some f) :
    f.rest.length < cs.length := by
  have hcs := (findFence_eq cs f h).1
  rw [hcs]
  simp
  omega

end KornChat

namespace KornChat

/-! ### Scan lemmas for the message parser -/

theorem scanParts_code_contents (fuel : Nat) : ∀ cs : List Char,
    ((scanPartsAux fuel cs).filter isCodePart).map MessagePart.content
      = (fencesAux fuel cs).map (fun q => String.mk (trimChars q.2)) := by
  induction fuel with
  | zero => intro cs; rfl
  | succ n ih =>
    intro cs
    cases hf : findFence cs with
    | none =>
      simp only [scanPartsAux, fencesAux, hf]
      by_cases h1 : cs.isEmpty
      · simp [h1]
      · by_cases h2 : (trimChars cs).isEmpty
        · simp [h1, h2]
        · simp [h1, h2, isCodePart]
    | some f =>
      simp only [scanPartsAux, fencesAux, hf]
      by_cases hp : (trimChars f.pre).isEmpty
      · simp [hp, isCodePart, ih f.rest]
      · simp [hp, isCodePart, ih f.rest]

theorem scanParts_prose_count (fuel : Nat) : ∀ cs : List Char,
    ((scanPartsAux fuel cs).filter isTextPart).length ≤ (fencesAux fuel cs).length + 1 := by
  induction fuel with
  | zero => intro cs; simp [scanPartsAux, fencesAux]
  | succ n ih =>
    intro cs
    cases hf : findFence cs with
    | none =>
      simp only [scanPartsAux, fencesAux, hf]
      by_cases h1 : cs.isEmpty
      · simp [h1]
      · by_cases h2 : (trimChars cs).isEmpty
        · simp [h1, h2]
        · simp [h1, h2, isTextPart]
    | some f =>
      simp only [scanPartsAux, fencesAux, hf]
      have := ih f.rest
      by_cases hp : (trimChars f.pre).isEmpty
      · simp [hp, isTextPart]
        omega
      · simp [hp, isTextPart]
        omega

theorem scanParts_prose_trimmed (fuel : Nat) : ∀ (cs : List Char) (p : MessagePart),
    p ∈ scanPartsAux fuel cs → p.type = PartType.text →
    ∃ x, p.content = String.mk (trimChars x) ∧ trimChars x ≠ [] := by
  induction fuel with
  | zero => intro cs p hp; simp [scanPartsAux] at hp
  | succ n ih =>
    intro cs p hp htype
    cases hf : findFence cs with
    | none =>
      rw [scanPartsAux] at hp
      rw [hf] at hp
      by_cases h1 : cs.isEmpty
      · simp [h1] at hp
      · by_cases h2 : (trimChars cs).isEmpty
        · simp [h1, h2] at hp
        · simp [h1, h2] at hp
          subst hp
          exact ⟨cs, rfl, by simpa [List.isEmpty_iff] using h2⟩
    | some f =>
      rw [scanPartsAux] at hp
      rw [hf] at hp
      rw [List.mem_append] at hp
      rcases hp with hpre | hrest
      · by_cases hp2 : (trimChars f.pre).isEmpty
        · simp [hp2] at hpre
        · simp [hp2] at hpre
          subst hpre
          exact ⟨f.pre, rfl, by simpa [List.isEmpty_iff] using hp2⟩
      · rcases List.mem_cons.mp hrest with hcode | htail
        · subst hcode
          simp at htype
        · exact ih f.rest p htail htype

theorem scanParts_reconstruct : ∀ (fuel : Nat) (cs : List Char), cs.length < fuel →
    (∀ q ∈ fencesAux fuel cs, q.1 ≠ []) →
    eraseWs (reconstructChars (scanPartsAux fuel cs)) = eraseWs cs := by
  intro fuel
  induction fuel with
  | zero => intro cs h; omega
  | succ n ih =>
    intro cs hlen htags
    cases hf : findFence cs with
    | none =>
      simp only [scanPartsAux, hf]
      by_cases h1 : cs.isEmpty
      · have : cs = [] := by simpa [List.isEmpty_iff] using h1
        subst this
        simp [reconstructChars]
      · by_cases h2 : (trimChars cs).isEmpty
        · simp only [h1, h2]
          simp [reconstructChars]
          exact (eraseWs_of_trim_nil cs (by simpa [List.isEmpty_iff] using h2)).symm
        · simp only [h1, h2]
          simp [reconstructChars, reconstructPart]
          exact eraseWs_trimChars cs
    | some f =>
      have htagsf : (f.lang, f.body) ∈ fencesAux (n + 1) cs := by
        simp [fencesAux, hf]
      have hlang : f.lang ≠ [] := htags (f.lang, f.body) htagsf
      have hlang2 : f.lang.isEmpty = false := by
        simpa [List.isEmpty_iff] using hlang
      obtain ⟨hcs, hw⟩ := findFence_eq cs f hf
      have hrl := findFence_rest_lt cs f hf
      have htags2 : ∀ q ∈ fencesAux n f.rest, q.1 ≠ [] := by
        intro q hq
        apply htags
        simp [fencesAux, hf]
        right
        exact hq
      have ihr2 : eraseWs ((scanPartsAux n f.rest).map reconstructPart).flatten
          = eraseWs f.rest := ih f.rest (by omega) htags2
      have hbt : jsSpace ('\x60' : Char) = false := by decide
      have hnl : jsSpace '\n' = true := by decide
      have hlangws : eraseWs f.lang = f.lang := eraseWs_of_all_word f.lang hw
      have htb := eraseWs_trimChars f.body
      have htp := eraseWs_trimChars f.pre
      simp only [scanPartsAux, hf]
      by_cases hp : (trimChars f.pre).isEmpty
      · have hpre0 : eraseWs f.pre = [] :=
          eraseWs_of_trim_nil f.pre (by simpa [List.isEmpty_iff] using hp)
        rw [hcs]
        simp [hp, reconstructChars, reconstructPart, hlang2, btick, data_mk,
          eraseWs_append, eraseWs_cons_keep, eraseWs_cons_drop, hbt, hnl,
          ihr2, htb, htp, hlangws, hpre0, List.append_assoc]
      · rw [hcs]
        simp [hp, reconstructChars, reconstructPart, hlang2, btick, data_mk,
          eraseWs_append, eraseWs_cons_keep, eraseWs_cons_drop, hbt, hnl,
          ihr2, htb, htp, hlangws, List.append_assoc]

end KornChat

namespace KornChat

/-! ### Claim theorems: tokenizer (C1, C2, C9) -/

/-- Claim C1, counterexample: the tokenizer of highlightShellCode does not
consume every character of a non-comment line.  On the line a*b the star
matches no grammar alternative and is skipped, so the produced tokens are
exactly "a" and "b" and their concatenation "ab" differs from the line. -/
theorem tokens_gap_cex :
    highlightShellCode "a*b" = [[⟨"a", Color.plain⟩, ⟨"b", Color.plain⟩]] ∧
    tokensJoined (highlightLine "a*b") = "ab".data ∧
    (("ab" : String) == "a*b") = false := by
  decide

/-- Claim C1 (amended): for every code string and every line of it, the
tokens produced for that line are disjoint in-order substrings — their
concatenation is an order-preserving selection (sublist) of the line — but
characters matched by no grammar alternative (such as the star) are
skipped, so the concatenation need not cover the whole line. -/
theorem highlight_tokens_sublist (code : String) :
    ∀ line ∈ splitLines code, (tokensJoined (highlightLine line)).Sublist line.data := by
  intro line _
  unfold highlightLine
  split
  next ws cm heq =>
    have hwc := commentMatch_eq line ws cm heq
    simp only [tokensJoined, List.map_cons, List.map_nil, List.flatten_cons,
      List.flatten_nil, List.append_nil]
    rw [hwc]
  next =>
    cases htoks : tokenizeLine line.data with
    | nil =>
      simp [tokensJoined]
    | cons a as =>
      show (tokensJoined ((a :: as).map
          fun t => (⟨String.mk t, classify (String.mk t)⟩ : Tok))).Sublist line.data
      have hmap : tokensJoined ((a :: as).map
            fun t => (⟨String.mk t, classify (String.mk t)⟩ : Tok))
          = (a :: as).flatten := by
        simp only [tokensJoined, List.map_map]
        have hcomp : ((fun t : Tok => t.text.data) ∘
            fun t : List Char => (⟨String.mk t, classify (String.mk t)⟩ : Tok)) = id := rfl
        rw [hcomp, List.map_id]
      rw [hmap, ← htoks]
      exact tokenizeLineAux_flatten_sublist line.data.length line.data

/-- Witness for highlight_tokens_sublist at the concrete code a*b. -/
theorem highlight_tokens_sublist_witness :
    ("a*b" ∈ splitLines "a*b") ∧ (tokensJoined (highlightLine "a*b")).Sublist "a*b".data :=
  ⟨by decide, highlight_tokens_sublist "a*b" "a*b" (by decide)⟩

/-- Claim C2, counterexample: the token cat receives the keyword-3 color
although it is not among the twelve words the claim lists — the source
keyword table has a thirteenth entry, "cat". -/
theorem keyword3_cat_cex :
    classify "cat" = Color.keyword3 ∧
    (["print", "echo", "lower", "trim", "edit", "const", "chmod", "cd", "ls",
      "grep", "awk", "sed"].contains "cat") = false := by
  decide

/-- Claim C2 (amended): for every token that is not an all-digit run and is
not in keyword set 1, the token gets the keyword-3 color exactly when it is
one of the thirteen words print, echo, lower, trim, edit, const, chmod,
cd, ls, cat, grep, awk, sed. -/
theorem keyword3_classification (t : String)
    (h1 : allDigits t = false) (h2 : t ∉ keywords1) :
    classify t = Color.keyword3 ↔
      t ∈ ["print", "echo", "lower", "trim", "edit", "const", "chmod", "cd", "ls",
           "cat", "grep", "awk", "sed"] := by
  unfold classify
  rw [if_neg (by simp [h1]), if_neg h2]
  by_cases h3 : t ∈ keywords3
  · rw [if_pos h3]
    constructor
    · intro _
      exact h3
    · intro _
      rfl
  · rw [if_neg h3]
    constructor
    · intro hc
      exfalso
      split_ifs at hc
    · intro hm
      exact absurd hm h3

/-- Witness for keyword3_classification at the concrete token echo. -/
theorem keyword3_classification_witness :
    allDigits "echo" = false ∧ "echo" ∉ keywords1 ∧ classify "echo" = Color.keyword3 :=
  ⟨by decide, by decide,
   (keyword3_classification "echo" (by decide) (by decide)).mpr (by decide)⟩

/-- Claim C9: the classification cascade applies its rules in the fixed
source order with the first match winning: every keyword-set-1 token gets
the keyword-1 color and every keyword-set-4 token gets the keyword-4
color, and highlighting the line "if true; then" colors if and then as
keyword 1, true as keyword 4, the semicolon as operator, and the spaces as
plain — never operator or default for the keywords. -/
theorem classification_first_match :
    (∀ t ∈ keywords1, classify t = Color.keyword1) ∧
    (∀ t ∈ keywords4, classify t = Color.keyword4) ∧
    highlightShellCode "if true; then" =
      [[⟨"if", Color.keyword1⟩, ⟨" ", Color.plain⟩, ⟨"true", Color.keyword4⟩,
        ⟨";", Color.operator⟩, ⟨" ", Color.plain⟩, ⟨"then", Color.keyword1⟩]] := by
  refine ⟨?_, ?_, by decide⟩
  · intro t ht
    fin_cases ht <;> decide
  · intro t ht
    fin_cases ht <;> decide

/-- Witness for classification_first_match at the tokens if and true. -/
theorem classification_first_match_witness :
    ("if" ∈ keywords1 ∧ classify "if" = Color.keyword1) ∧
    ("true" ∈ keywords4 ∧ classify "true" = Color.keyword4) :=
  ⟨⟨by decide, classification_first_match.1 "if" (by decide)⟩,
   ⟨by decide, classification_first_match.2.1 "true" (by decide)⟩⟩

end KornChat

namespace KornChat

/-! ### Claim theorems: message parser (C6, C7, C8, C10) -/

theorem mk_eq_empty_iff (l : List Char) : String.mk l = "" ↔ l = [] := by
  constructor
  · intro h
    exact congrArg String.data h
  · intro h
    subst h
    rfl

/-- Claim C6, counterexample: on an input with no fenced block but with
surrounding whitespace, the single returned prose segment is the TRIMMED
input, not the untrimmed original: parse of " hi" yields content "hi". -/
theorem parse_no_fence_trims_cex :
    findFence (" hi" : String).data = none ∧
    parseMessage " hi" = [⟨PartType.text, "hi", none⟩] ∧
    (("hi" : String) == " hi") = false := by
  decide

/-- Claim C6 (amended): for every input in which the fenced-block regex
finds no match, parse returns exactly one prose segment; its content is
the trimmed input when that is nonempty, and the untrimmed original input
(then entirely whitespace or empty) only when the input trims to empty. -/
theorem parse_no_fence (text : String) (h : findFence text.data = none) :
    parseMessage text =
      [⟨PartType.text, if trimString text = "" then text else trimString text, none⟩] := by
  unfold parseMessage
  simp only [scanPartsAux, h]
  by_cases h1 : text.data.isEmpty
  · have hdata : text.data = [] := by simpa [List.isEmpty_iff] using h1
    have htrim : trimString text = "" := by
      rw [trimString, mk_eq_empty_iff, hdata]
      rfl
    simp [h1, htrim]
  · by_cases h2 : (trimChars text.data).isEmpty
    · have htrim : trimString text = "" := by
        rw [trimString, mk_eq_empty_iff]
        simpa [List.isEmpty_iff] using h2
      simp [h1, h2, htrim]
    · have htrim : ¬ trimString text = "" := by
        rw [trimString, mk_eq_empty_iff]
        simpa [List.isEmpty_iff] using h2
      have htrim2 : String.mk (trimChars text.data) = trimString text := rfl
      simp [h1, h2, htrim, htrim2]

/-- Witness for parse_no_fence at the concrete input hello. -/
theorem parse_no_fence_witness :
    findFence ("hello" : String).data = none ∧
    parseMessage "hello" = [⟨PartType.text,
      if trimString "hello" = "" then "hello" else trimString "hello", none⟩] :=
  ⟨by decide, parse_no_fence "hello" (by decide)⟩

/-- Claim C10: parse never returns an empty sequence; when the scan emits
no segments the fallback single prose segment holding the whole (possibly
empty) input is returned. -/
theorem parse_nonempty (text : String) : 1 ≤ (parseMessage text).length := by
  unfold parseMessage
  cases hs : scanPartsAux (text.data.length + 1) text.data with
  | nil => simp
  | cons p ps => simp

/-- Claim C7, counterexample: a fenced block with no language tag is given
the fallback tag bash, so re-wrapping the parsed segment inserts the four
non-whitespace characters of bash that the original never contained; the
whitespace-erased reconstruction differs from the whitespace-erased
input, refuting the round-trip invariant as claimed. -/
theorem reconstruct_default_lang_cex :
    parseMessage "```\nls\n```" = [⟨PartType.code, "ls", some "bash"⟩] ∧
    reconstructChars (parseMessage "```\nls\n```") = ("```bash\nls```" : String).data ∧
    ((eraseWs (reconstructChars (parseMessage "```\nls\n```")) ==
      eraseWs (("```\nls\n```" : String).data)) = false) := by
  decide

/-- Claim C7 (amended): when every fenced block of the input carries an
explicit (nonempty) language tag, concatenating the parsed segments in
order with fence markers, tag and newline re-added reconstructs the
original input up to per-segment surrounding-whitespace trimming: the
whitespace-erased reconstruction equals the whitespace-erased input.  For
an untagged block the fallback tag is substituted and the invariant fails
(see the counterexample). -/
theorem reconstruct_round_trip (text : String)
    (h : ∀ q ∈ fences text, q.1 ≠ []) :
    eraseWs (reconstructChars (parseMessage text)) = eraseWs text.data := by
  unfold parseMessage
  cases hs : scanPartsAux (text.data.length + 1) text.data with
  | nil => simp [reconstructChars, reconstructPart]
  | cons p ps =>
    have hmain := scanParts_reconstruct (text.data.length + 1) text.data (by omega) h
    rw [hs] at hmain
    exact hmain

/-- Witness for reconstruct_round_trip on a tagged block with prose. -/
theorem reconstruct_round_trip_witness :
    (∀ q ∈ fences "A\n```js\nconst\n```\nB", q.1 ≠ []) ∧
    eraseWs (reconstructChars (parseMessage "A\n```js\nconst\n```\nB"))
      = eraseWs (("A\n```js\nconst\n```\nB" : String).data) :=
  ⟨by decide, reconstruct_round_trip "A\n```js\nconst\n```\nB" (by decide)⟩

/-- Claim C8: for every input whose scan finds N >= 1 fenced blocks, parse
returns exactly N code segments, whose contents are the trimmed block
bodies in source order, interleaved with at most N + 1 prose segments, and
every returned prose segment is nonempty after trimming. -/
theorem parse_fenced_blocks (text : String) (h : fences text ≠ []) :
    (((parseMessage text).filter isCodePart).length = (fences text).length ∧
     ((parseMessage text).filter isCodePart).map MessagePart.content
       = (fences text).map (fun q => String.mk (trimChars q.2))) ∧
    ((parseMessage text).filter isTextPart).length ≤ (fences text).length + 1 ∧
    ∀ p ∈ parseMessage text, p.type = PartType.text → trimString p.content ≠ "" := by
  have hcc := scanParts_code_contents (text.data.length + 1) text.data
  have hne : scanPartsAux (text.data.length + 1) text.data ≠ [] := by
    intro h0
    apply h
    rw [h0] at hcc
    simp only [List.filter_nil, List.map_nil] at hcc
    exact List.map_eq_nil_iff.mp hcc.symm
  have hparts : parseMessage text = scanPartsAux (text.data.length + 1) text.data := by
    unfold parseMessage
    cases hs : scanPartsAux (text.data.length + 1) text.data with
    | nil => exact absurd hs hne
    | cons p ps => rfl
  refine ⟨⟨?_, ?_⟩, ?_, ?_⟩
  · rw [hparts]
    have h2 := congrArg List.length hcc
    simpa [List.length_map] using h2
  · rw [hparts]
    exact hcc
  · rw [hparts]
    exact scanParts_prose_count (text.data.length + 1) text.data
  · intro p hp htype
    rw [hparts] at hp
    obtain ⟨x, hx, hxne⟩ :=
      scanParts_prose_trimmed (text.data.length + 1) text.data p hp htype
    rw [hx, trimString, data_mk, trimChars_idem]
    intro h0
    exact hxne ((mk_eq_empty_iff (trimChars x)).mp h0)

/-- Witness for parse_fenced_blocks on an input with one tagged block. -/
theorem parse_fenced_blocks_witness :
    (fences "Here\n```js\nconst x = 1;\n```\nDone" ≠ []) ∧
    ((((parseMessage "Here\n```js\nconst x = 1;\n```\nDone").filter isCodePart).length
        = (fences "Here\n```js\nconst x = 1;\n```\nDone").length ∧
      ((parseMessage "Here\n```js\nconst x = 1;\n```\nDone").filter isCodePart).map
          MessagePart.content
        = (fences "Here\n```js\nconst x = 1;\n```\nDone").map
            (fun q => String.mk (trimChars q.2))) ∧
     ((parseMessage "Here\n```js\nconst x = 1;\n```\nDone").filter isTextPart).length
       ≤ (fences "Here\n```js\nconst x = 1;\n```\nDone").length + 1 ∧
     ∀ p ∈ parseMessage "Here\n```js\nconst x = 1;\n```\nDone",
       p.type = PartType.text → trimString p.content ≠ "") :=
  ⟨by decide, parse_fenced_blocks "Here\n```js\nconst x = 1;\n```\nDone" (by decide)⟩

end KornChat

namespace KornChat

/-! ### Claim theorems: chat session controller (C3, C4, C5) -/

theorem jsOrOpt_falsy (a : Option Json) (b : Json) (h : jsTruthyOpt a = false) :
    jsOrOpt a b = b := by
  cases a with
  | none => rfl
  | some v =>
    simp only [jsTruthyOpt] at h
    simp [jsOrOpt, h]

theorem jsOrOpt_truthy (a : Option Json) (b v : Json) (ha : a = some v)
    (h : jsTruthy v = true) : jsOrOpt a b = v := by
  subst ha
  simp [jsOrOpt, h]

/-- Claim C3, counterexample: a decoded body whose output field is present
with the empty-string value IS replaced by the stringified dump, because
the extraction uses the JS or-operator and the empty string is falsy. -/
theorem reply_empty_field_cex :
    replyText (Json.obj [("output", Json.str "")])
      = Json.str (stringify (Json.obj [("output", Json.str "")])) ∧
    stringify (Json.obj [("output", Json.str "")]) = "\x7b\"output\":\"\"\x7d" ∧
    (("\x7b\"output\":\"\"\x7d" : String) == "") = false := by
  refine ⟨rfl, by decide, by decide⟩

/-- Claim C3 (amended): for every non-null decoded body, the assistant text
equals the value of the first field among output, message, response (in
that exact order) whose value is present and truthy; the stringified dump
of the whole body is used when all three are absent or falsy.  A
present-but-falsy value, such as the empty string, falls through to the
later candidates and possibly to the dump.  On a non-object body (number,
string, boolean, array) property access yields undefined for all three
names, so the stringified dump is always used. -/
theorem reply_field_order :
    (∀ (fs : List (String × Json)) (v : Json), List.lookup "output" fs = some v →
      jsTruthy v = true → replyText (Json.obj fs) = v) ∧
    (∀ (fs : List (String × Json)) (v : Json),
      jsTruthyOpt (List.lookup "output" fs) = false →
      List.lookup "message" fs = some v → jsTruthy v = true →
      replyText (Json.obj fs) = v) ∧
    (∀ (fs : List (String × Json)) (v : Json),
      jsTruthyOpt (List.lookup "output" fs) = false →
      jsTruthyOpt (List.lookup "message" fs) = false →
      List.lookup "response" fs = some v → jsTruthy v = true →
      replyText (Json.obj fs) = v) ∧
    (∀ fs : List (String × Json),
      jsTruthyOpt (List.lookup "output" fs) = false →
      jsTruthyOpt (List.lookup "message" fs) = false →
      jsTruthyOpt (List.lookup "response" fs) = false →
      replyText (Json.obj fs) = Json.str (stringify (Json.obj fs))) ∧
    (∀ body : Json, (∀ fs : List (String × Json), body ≠ Json.obj fs) →
      body ≠ Json.null → replyText body = Json.str (stringify body)) := by
  refine ⟨?_, ?_, ?_, ?_, ?_⟩
  · intro fs v hl ht
    simp only [replyText, fieldOrUndef]
    exact jsOrOpt_truthy _ _ v hl ht
  · intro fs v ho hl ht
    simp only [replyText, fieldOrUndef]
    rw [jsOrOpt_falsy _ _ ho]
    exact jsOrOpt_truthy _ _ v hl ht
  · intro fs v ho hm hl ht
    simp only [replyText, fieldOrUndef]
    rw [jsOrOpt_falsy _ _ ho, jsOrOpt_falsy _ _ hm]
    exact jsOrOpt_truthy _ _ v hl ht
  · intro fs ho hm hr
    simp only [replyText, fieldOrUndef]
    rw [jsOrOpt_falsy _ _ ho, jsOrOpt_falsy _ _ hm, jsOrOpt_falsy _ _ hr]
  · intro body hobj hnull
    cases body with
    | null => exact absurd rfl hnull
    | obj fs => exact absurd rfl (hobj fs)
    | bool b => rfl
    | num n => rfl
    | str s => rfl
    | arr xs => rfl

/-- Witness for reply_field_order on a body with a truthy output field and
on a non-object (numeric) body. -/
theorem reply_field_order_witness :
    (List.lookup "output" [("output", Json.str "hi")] = some (Json.str "hi") ∧
     jsTruthy (Json.str "hi") = true ∧
     replyText (Json.obj [("output", Json.str "hi")]) = Json.str "hi") ∧
    replyText (Json.num 5) = Json.str (stringify (Json.num 5)) :=
  ⟨⟨rfl, by decide,
    reply_field_order.1 [("output", Json.str "hi")] (Json.str "hi") rfl (by decide)⟩,
   reply_field_order.2.2.2.2 (Json.num 5) (fun fs h => Json.noConfusion h)
     (fun h => Json.noConfusion h)⟩

/-- Claim C5: submit is a complete no-op when the user text trims to empty
or the awaiting-response flag is already set: the whole state — message
sequence, compose buffer and flag — is returned unchanged, and no request
is issued (the request component is none). -/
theorem send_noop (now : Nat) (s : ChatState) (net : NetOutcome)
    (h : trimString s.input = "" ∨ s.isLoading = true) :
    sendMessage now s net = (s, none) := by
  unfold sendMessage
  rw [if_pos h]

/-- Witness for send_noop on whitespace-only input. -/
theorem send_noop_witness :
    (trimString "   " = "" ∨ (false : Bool) = true) ∧
    sendMessage 0 ⟨[], "   ", false⟩ NetOutcome.decodeError = (⟨[], "   ", false⟩, none) :=
  ⟨Or.inl (by decide),
   send_noop 0 ⟨[], "   ", false⟩ NetOutcome.decodeError (Or.inl (by decide))⟩

/-- Claim C4: when the request is issued and fails in any way (transport
failure, non-success HTTP status, or JSON decode failure), no assistant
message is appended — the message sequence grows by exactly the one user
message — and the awaiting-response flag ends false on every failure path
and on the success path alike. -/
theorem send_failure_no_bot (now : Nat) (s : ChatState) (net : NetOutcome)
    (h1 : trimString s.input ≠ "") (h2 : s.isLoading = false)
    (h3 : net = NetOutcome.transportError ∨ (∃ st, net = NetOutcome.httpError st) ∨
      net = NetOutcome.decodeError) :
    ((sendMessage now s net).1.messages
        = s.messages ++ [userMessage now (trimString s.input)] ∧
      (userMessage now (trimString s.input)).sender = Sender.user ∧
      (sendMessage now s net).1.isLoading = false) ∧
    ∀ body : Json, (sendMessage now s (NetOutcome.success body)).1.isLoading = false := by
  have hcond : ¬ (trimString s.input = "" ∨ s.isLoading = true) := by
    simp [h1, h2]
  constructor
  · rcases h3 with rfl | ⟨st, rfl⟩ | rfl <;>
      · unfold sendMessage
        rw [if_neg hcond]
        exact ⟨rfl, rfl, rfl⟩
  · intro body
    unfold sendMessage
    rw [if_neg hcond]
    cases body <;> rfl

/-- Witness for send_failure_no_bot on a transport failure. -/
theorem send_failure_no_bot_witness :
    (trimString "hi" ≠ "") ∧
    (((sendMessage 0 ⟨[], "hi", false⟩ NetOutcome.transportError).1.messages
        = ([] : List Message) ++ [userMessage 0 (trimString "hi")] ∧
      (userMessage 0 (trimString "hi")).sender = Sender.user ∧
      (sendMessage 0 ⟨[], "hi", false⟩ NetOutcome.transportError).1.isLoading = false) ∧
     ∀ body : Json,
       (sendMessage 0 ⟨[], "hi", false⟩ (NetOutcome.success body)).1.isLoading = false) :=
  ⟨by decide, send_failure_no_bot 0 ⟨[], "hi", false⟩ NetOutcome.transportError
    (by decide) rfl (Or.inl rfl)⟩

end KornChat

namespace KornChat

/-! ### Fuel irrelevance for the parser scan (fuel = length + 1 suffices) -/

theorem fencesAux_congr : ∀ (f1 f2 : Nat) (cs : List Char), cs.length < f1 →
    cs.length < f2 → fencesAux f1 cs = fencesAux f2 cs := by
  intro f1
  induction f1 with
  | zero => intro f2 cs h1 h2; omega
  | succ n ih =>
    intro f2 cs h1 h2
    cases f2 with
    | zero => omega
    | succ m =>
      simp only [fencesAux]
      cases hf : findFence cs with
      | none => rfl
      | some f =>
        have hlt := findFence_rest_lt cs f hf
        simp [ih m f.rest (by omega) (by omega)]

theorem scanPartsAux_congr : ∀ (f1 f2 : Nat) (cs : List Char), cs.length < f1 →
    cs.length < f2 → scanPartsAux f1 cs = scanPartsAux f2 cs := by
  intro f1
  induction f1 with
  | zero => intro f2 cs h1 h2; omega
  | succ n ih =>
    intro f2 cs h1 h2
    cases f2 with
    | zero => omega
    | succ m =>
      simp only [scanPartsAux]
      cases hf : findFence cs with
      | none => rfl
      | some f =>
        have hlt := findFence_rest_lt cs f hf
        simp [ih m f.rest (by omega) (by omega)]

end KornChat
